import Mathlib

/-!
Shallow embedding of the light-wallet-server core (account scan state,
packed extra byte, scanner helpers, chain sync, REST auth) and proofs of
the specification claims about it.

Machine integers of the source (uint8, uint32, uint64) are modelled as
Nat with explicit reductions modulo 2 ^ w exactly where the source can
overflow or truncate. Cryptographic primitives are black boxes in the
source (external library calls); they are modelled as function
parameters, and the theorems quantify over them.
-/

namespace db

/-- Payment-id / coinbase tag stored in the low 3 bits of the packed
extra byte (db/data.h, enum class extra). -/
inductive extra : Type where
  | kNone
  | kCoinbase
  | kRingct
  | kCoinbaseAndRingct
deriving DecidableEq, Repr

/-- Underlying uint8 value of an extra enumerator (db/data.h lines 113-119). -/
def extra.toNat : extra → Nat
  | .kNone => 0
  | .kCoinbase => 1
  | .kRingct => 2
  | .kCoinbaseAndRingct => 3

/-- Inverse conversion used when the source casts an integer back to the
enum, as in db::extra(lmdb::to_native(ext) | lmdb::to_native(kRingct)).
Only the values 0..3 occur in the translated code. -/
def extra.fromNat (n : Nat) : extra :=
  if n = 1 then .kCoinbase
  else if n = 2 then .kRingct
  else if n = 3 then .kCoinbaseAndRingct
  else .kNone

/-- Embeds db::pack (db/data.h lines 124-128). The C++ expression
(uint8(val) & 0x7) | (length << 3) is computed in int and then converted
to the uint8-backed enum extra_and_length, hence the reduction mod 256. -/
def pack (val : extra) (length : Nat) : Nat :=
  ((val.toNat &&& 0x7) ||| (length <<< 3)) % 256

/-- Embeds db::unpack (db/data.h lines 131-135); the argument is the
packed byte (a value below 256). The first component is the integer
value of the returned extra enum, the second the returned length. -/
def unpack (val : Nat) : Nat × Nat :=
  (val &&& 0x7, val >>> 3)

/-- Account status stored per account (db/data.h lines 64-69). -/
inductive account_status : Type where
  | kActive
  | kInactive
  | kHidden
deriving DecidableEq, Repr

/-- Public address pair of an account (db/data.h lines 86-90); the two
32-byte keys are opaque values here. -/
structure account_address : Type where
  spend_public : Nat
  view_public : Nat
deriving DecidableEq, Repr

/-- Account row as stored in the database (db/data.h lines 93-103). -/
structure account : Type where
  id : Nat
  access : Nat
  address : account_address
  key : Nat
  scan_height : Nat
  start_height : Nat
  creation : Nat
deriving DecidableEq, Repr

/-- Information about a received output (db/data.h lines 138-161).
Hashes, keys and the ringct mask are opaque values; the extra field
holds the packed byte produced by db::pack. -/
structure output : Type where
  height : Nat
  id : Nat
  amount : Nat
  timestamp : Nat
  unlock_time : Nat
  mixin_count : Nat
  index : Nat
  tx_hash : Nat
  tx_prefix_hash : Nat
  tx_public : Nat
  ringct_mask : Nat
  extra : Nat
  payment_id : Nat
deriving DecidableEq, Repr

/-- Possible spend of a received output (db/data.h lines 165-170). -/
structure spend : Type where
  image : Nat
  mixin_count : Nat
deriving DecidableEq, Repr

end db

namespace lws

/-- Error enumerators from light_wallet_server/error.h that the
translated code paths can produce. -/
inductive error : Type where
  | kAbortScan
  | kAccountExists
  | kBadAddress
  | kBadViewKey
  | kBadBlockchain
  | kBlockchainReorg
  | kCreateQueueMax
  | kDaemonConnectionFailure
  | kDuplicateRequest
  | kExceededBlockchainBuffer
  | kNoSuchAccount
  | kSystemClockInvalidRange
deriving DecidableEq, Repr

/-- In-memory scan state of one user (account.h / account.cpp). The
immutable block (address, id, keys) is inlined as plain fields; the
mutable scratch is received_, spends_, outputs_ and the scan height. -/
structure account : Type where
  view_key : Nat
  spend_public : Nat
  view_public : Nat
  scan_height : Nat
  received_ : List Nat
  spends_ : List (Nat × db.spend)
  outputs_ : List db.output
deriving DecidableEq, Repr

/-- Embeds the public constructor account::account(db::account const&,
std::vector of output ids) at account.cpp lines 80-84. The constructor
first delegates, moving the received_ parameter into the member; the
subsequent std::sort at line 83 therefore operates on the moved-from
parameter vector, so the member received_ keeps the order in which the
caller supplied the ids and is not sorted here. -/
def account.ofDb (source : db.account) (received : List Nat) : account :=
  { view_key := source.key
    spend_public := source.address.spend_public
    view_public := source.address.view_public
    scan_height := source.scan_height
    received_ := received
    spends_ := []
    outputs_ := [] }

/-- Embeds the std::lower_bound call pattern on a random-access range of
output ids: the classic binary halving loop, expressed on the index pair
(first, count) into the list. Returns the index of the first position
whose element is not less than v, assuming the usual partition
precondition. -/
def lower_bound_from (l : List Nat) (v : Nat) (first count : Nat) : Nat :=
  if h : count = 0 then first
  else
    let step := count / 2
    if l.getD (first + step) 0 < v then
      lower_bound_from l v (first + step + 1) (count - step - 1)
    else
      lower_bound_from l v first step
termination_by count
decreasing_by
  · omega
  · omega

/-- std::lower_bound over the whole list. -/
def lower_bound (l : List Nat) (v : Nat) : Nat :=
  lower_bound_from l v 0 l.length

/-- Embeds std::binary_search(first, last, v): true when lower_bound is
not at the end and the element there is not greater than v. -/
def binary_search (l : List Nat) (v : Nat) : Bool :=
  let i := lower_bound l v
  decide (i < l.length) && decide (l.getD i 0 ≤ v)

/-- Embeds account::add_out (account.cpp lines 143-150): append the
output to outputs_ and insert its id into received_ at the position
returned by std::lower_bound. -/
def account.add_out (a : account) (out : db.output) : account :=
  { a with
    outputs_ := a.outputs_ ++ [out]
    received_ := a.received_.insertIdx (lower_bound a.received_ out.id) out.id }

/-- Loop body of account::check_spends (account.cpp lines 158-164): the
running id accumulates each offset in uint64 arithmetic, and an entry is
emitted for every reconstructed id found by std::binary_search. Returns
the list of emitted spend entries in offset order. -/
def check_spends_loop (received : List Nat) (image mixin : Nat) :
    List Nat → Nat → List (Nat × db.spend)
  | [], _ => []
  | offset :: rest, id =>
    let id2 := (id + offset) % 2 ^ 64
    (if binary_search received id2 then [(id2, ⟨image, mixin⟩)] else []) ++
      check_spends_loop received image mixin rest id2

/-- Embeds account::check_spends (account.cpp lines 152-165): mixin is
max(1, n) - 1 for n offsets, and every reconstructed prefix-sum id that
binary-search finds in received_ is appended to spends_. -/
def account.check_spends (a : account) (image : Nat) (new_spends : List Nat) :
    account :=
  let mixin := max 1 new_spends.length - 1
  { a with
    spends_ := a.spends_ ++ check_spends_loop a.received_ image mixin new_spends 0 }

/-- Reconstructed absolute output ids of a ring: the running prefix sums
(in uint64 arithmetic) of the member offsets, in offset order. This is
the reference sequence the check_spends loop walks. -/
def ring_ids : List Nat → Nat → List Nat
  | [], _ => []
  | offset :: rest, id =>
    let id2 := (id + offset) % 2 ^ 64
    id2 :: ring_ids rest id2

/-- Embeds key_check (rest_server.cpp lines 90-98), parametric over the
external primitive crypto::secret_key_to_public_key, which either fails
or produces the public key derived from the secret key. -/
def key_check (secret_to_public : Nat → Option Nat)
    (user : db.account_address) (key : Nat) : Bool :=
  match secret_to_public key with
  | none => false
  | some verify => if verify ≠ user.view_public then false else true

/-- Outcome of one iteration of the sync_chain request loop. -/
inductive sync_result : Type where
  | success
  | fail (e : error)
  | next (known : List Nat)
deriving DecidableEq, Repr

/-- Locator rebuild at scanner.cpp lines 848-857: known_hashes is erased
down to its final element, then up to ten hashes are spliced one at a
time from the back of the response list, each inserted before the
surviving element, giving the last ten response hashes newest first
followed by the old final hash. -/
def sync_known_update (known resp : List Nat) : List Nat :=
  resp.reverse.take 10 ++ [known.getLastD 0]

/-- One iteration of the sync_chain loop (scanner.cpp lines 790-858).
The ZMQ send and receive are taken as delivering resp_hashes, and
disk_result is the outcome of the db::storage::sync_chain write (the
storage engine is outside this translation unit). The loop top fails
with kBadBlockchain on an empty locator; the loop returns success when
the peer sent at most one hash or its last hash equals the first
locator hash; otherwise the hashes are committed and the locator
rebuilt for the next iteration. -/
def sync_step (disk_result : Except error Unit) (known resp_hashes : List Nat) :
    sync_result :=
  if known.isEmpty then .fail .kBadBlockchain
  else if resp_hashes.length ≤ 1 ∨ resp_hashes.getLast? = known.head? then
    .success
  else
    match disk_result with
    | .error e => .fail e
    | .ok _ => .next (sync_known_update known resp_hashes)

/-- Outcome of handling one get_blocks_fast response at the head of the
scan loop. -/
inductive scan_fetch : Type where
  | fail_zero_blocks
  | reset
  | next_request (start_height : Nat)
deriving DecidableEq, Repr

/-- Embeds the response validation and eager pipelining at scanner.cpp
lines 512-524: an empty block list throws, a response start height
different from the request resets the worker, and otherwise the next
request start height becomes resp start + number of blocks - 1 in
uint64 arithmetic, so the last returned block overlaps the next batch. -/
def scan_next_request (req_start resp_start num_blocks : Nat) : scan_fetch :=
  if num_blocks = 0 then .fail_zero_blocks
  else if resp_start ≠ req_start then .reset
  else .next_request ((resp_start + num_blocks - 1) % 2 ^ 64)

/-- Embeds is_hidden (rest_server.cpp lines 76-88). -/
def is_hidden : db.account_status → Bool
  | .kActive => false
  | .kInactive => false
  | .kHidden => true

/-- Filter and accumulation loop of get_unspent_outs (rest_server.cpp
lines 528-543): outputs whose amount is below the dust threshold or
whose ring size is below the requested mixin are skipped; each
remaining output is collected with its spend key images while its
amount joins the received total in uint64 arithmetic. -/
def unspent_loop (threshold mixin : Nat) (spends_of : Nat → List Nat) :
    List db.output → Nat → List (db.output × List Nat) →
      Nat × List (db.output × List Nat)
  | [], received, unspent => (received, unspent)
  | out :: rest, received, unspent =>
    if out.amount < threshold ∨ out.mixin_count < mixin then
      unspent_loop threshold mixin spends_of rest received unspent
    else
      unspent_loop threshold mixin spends_of rest
        ((received + out.amount) % 2 ^ 64) (unspent ++ [(out, spends_of out.id)])

/-- Embeds the decision core of get_unspent_outs (rest_server.cpp lines
490-557) after request parsing: authentication by key_check, the hidden
account check, defaulting of the dust threshold (zero when use_dust is
set true or no threshold was sent) and of the mixin bound, the
filter-and-sum loop, and the final received-versus-requested-amount
check, which reports kNoSuchAccount when the usable total is too small.
The account row lookup itself happens in the storage engine, so the
account status and its output rows are parameters, as is the per-output
spend image lookup. -/
def get_unspent_outs (secret_to_public : Nat → Option Nat)
    (spends_of : Nat → List Nat) (address : db.account_address) (key : Nat)
    (amount : Nat) (mixin : Option Nat) (use_dust : Option Bool)
    (dust_threshold : Option Nat) (status : db.account_status)
    (outs : List db.output) :
    Except error (Nat × List (db.output × List Nat)) :=
  if ! key_check secret_to_public address key then .error .kBadViewKey
  else if is_hidden status then .error .kNoSuchAccount
  else
    let threshold :=
      if use_dust.getD false ∨ dust_threshold = none then 0
      else dust_threshold.getD 0
    let mixin2 := mixin.getD 0
    let res := unspent_loop threshold mixin2 spends_of outs 0 []
    if res.1 < amount then .error .kNoSuchAccount
    else .ok res

end lws

namespace mzmq

/-- Embeds the per-iteration timeout update of mzmq::wait (scanner.cpp
lines 197-201). The argument elapsed is the measured duration of the
zmq_poll call, end - start, in milliseconds; the source computes
spent = duration_cast(start - end), which is the negation of elapsed,
and then timeout -= min(spent, timeout). Durations are signed integers. -/
def wait_timeout_update (timeout elapsed : Int) : Int :=
  timeout - min (-elapsed) timeout

/-- Modelled from the spec: the design note in spec.md section 9 states
the intended expression is end - start, so that the remaining timeout
decreases by the elapsed time of the poll, clamped so the remainder
never goes below zero. -/
def wait_timeout_update_intent (timeout elapsed : Int) : Int :=
  timeout - min elapsed timeout

end mzmq

/-- Concrete database account row used to exercise the account
constructor and check_spends on explicit inputs. -/
def acct_row : db.account :=
  { id := 1, access := 0, address := { spend_public := 3, view_public := 4 },
    key := 5, scan_height := 6, start_height := 0, creation := 0 }

/-- Concrete in-memory account owning output id 100, with an already
sorted received_ list. -/
def acct_with_100 : lws.account :=
  { view_key := 5, spend_public := 3, view_public := 4, scan_height := 6,
    received_ := [100], spends_ := [], outputs_ := [] }

/-- Concrete output row worth 3 units with ring size 0, used to exercise
the get_unspent_outs decision on explicit inputs. -/
def out_worth_3 : db.output :=
  { height := 6, id := 1, amount := 3, timestamp := 0, unlock_time := 0,
    mixin_count := 0, index := 0, tx_hash := 0, tx_prefix_hash := 0,
    tx_public := 0, ringct_mask := 0, extra := 0, payment_id := 0 }

namespace db

/-- Coinbase bit test on an extra value. -/
def extra.has_coinbase : extra → Bool
  | .kCoinbase => true
  | .kCoinbaseAndRingct => true
  | _ => false

/-- Ringct bit test on an extra value. -/
def extra.has_ringct : extra → Bool
  | .kRingct => true
  | .kCoinbaseAndRingct => true
  | _ => false

/-- Embeds db::extra(lmdb::to_native(ext) | lmdb::to_native(kRingct)) at
scanner.cpp line 411. -/
def extra.or_ringct (e : extra) : extra :=
  extra.fromNat (e.toNat ||| extra.kRingct.toNat)

end db

namespace lws

/-- Coinbase flag of a packed extra byte, read back through db::unpack. -/
def coinbase_flag (packed : Nat) : Bool :=
  decide ((db.unpack packed).1 &&& 1 = 1)

/-- Ringct flag of a packed extra byte, read back through db::unpack. -/
def ringct_flag (packed : Nat) : Bool :=
  decide ((db.unpack packed).1 &&& 2 = 2)

/-- Transaction input; the scanner only inspects txin_to_key variants
(boost::get returns null on the generation and script variants, which
are collapsed into other). -/
inductive txin : Type where
  | to_key (k_image : Nat) (key_offsets : List Nat)
  | other
deriving DecidableEq, Repr

/-- Transaction output target; only txout_to_key targets are scanned. -/
inductive txout_target : Type where
  | to_key (key : Nat)
  | other
deriving DecidableEq, Repr

/-- Transaction output: visible amount (zero when ringct-encoded) and
target. -/
structure txout : Type where
  amount : Nat
  target : txout_target
deriving DecidableEq, Repr

/-- Payment id in the tx-extra nonce, as the find/get cascade at
scanner.cpp lines 419-426 sees it: a plain 32-byte long id, an
encrypted 8-byte short id, or nothing. -/
inductive tx_payment : Type where
  | long_ (id : Nat)
  | short_ (id : Nat)
  | nothing
deriving DecidableEq, Repr

/-- Transaction as consumed by scan_transaction. pub_key is the outcome
of find_tx_extra_field_by_type for the tx_extra_pub_key field after
parse_tx_extra (none when absent); payment is the payment-id cascade
outcome on the parsed extra nonce; rct_outPk and rct_ecdh are the
per-output ringct mask and ecdh records accessed by .at(index). -/
structure transaction : Type where
  version : Nat
  pub_key : Option Nat
  payment : tx_payment
  vin : List txin
  vout : List txout
  unlock_time : Nat
  rct_outPk : List Nat
  rct_ecdh : List Nat
deriving DecidableEq, Repr

/-- External cryptographic primitives used by scan_transaction, black
boxes in the source: key derivation (bool return), one-time public key
derivation (bool return), ringct amount decoding (optional return), and
the two transaction hashes (get_transaction_hash returns a bool). -/
structure scan_crypto : Type where
  generate_key_derivation : Nat → Nat → Option Nat
  derive_public_key : Nat → Nat → Nat → Option Nat
  decode_amount : Nat → Nat → Nat → Nat → Option (Nat × Nat)
  get_tx_prefix_hash : transaction → Nat
  get_tx_hash : transaction → Option Nat

/-- Exceptions scan_transaction can throw: unsupported version, key
derivation failure, or an out-of-range .at access on the ringct or
output-id vectors. -/
inductive scan_err : Type where
  | version_unsupported
  | derivation_failed
  | index_oob
deriving DecidableEq, Repr

/-- Values computed lazily once per transaction and shared across the
user loop (scanner.cpp lines 330-331): the prefix hash, the transaction
hash, and the payment id as a (byte length, value) pair. -/
structure scan_ctx : Type where
  prefix_hash : Option Nat
  tx_hash : Option Nat
  payment_id : Option (Nat × Nat)
deriving DecidableEq, Repr

/-- Payment-id extraction at scanner.cpp lines 418-426: the long id is
stored with length sizeof(crypto::hash) = 32, the short id with length
sizeof(crypto::hash8) = 8, and an absent nonce leaves the default
zeroed pair. -/
def payment_of (t : transaction) : Nat × Nat :=
  match t.payment with
  | .long_ id => (32, id)
  | .short_ id => (8, id)
  | .nothing => (0, 0)

/-- Ring-input loop of scan_transaction (scanner.cpp lines 348-358):
every to-key input overwrites the remembered ring size with its offset
count and is checked against received_; other variants are skipped. -/
def scan_vin : List txin → Nat → account → Nat × account
  | [], ring_size, user => (ring_size, user)
  | .to_key img offs :: rest, _, user =>
    scan_vin rest offs.length (user.check_spends img offs)
  | .other :: rest, ring_size, user => scan_vin rest ring_size user

/-- Ring size the input loop leaves behind: the offset count of the
last to-key input, or the accumulator when there is none. -/
def tx_ring_size : List txin → Nat → Nat
  | [], acc => acc
  | .to_key _ offs :: rest, _ => tx_ring_size rest offs.length
  | .other :: rest, acc => tx_ring_size rest acc

/-- Result of handling a single transaction output for one user: skip
to the next output, abort the scan with an exception, or append a
freshly built db::output (carrying the possibly updated extra value). -/
inductive out_step : Type where
  | skip (ctx : scan_ctx)
  | abort (ctx : scan_ctx) (e : scan_err)
  | append (ctx : scan_ctx) (ext : db.extra) (o : db.output)
deriving DecidableEq, Repr

/-- Context carried out of an output step, whatever its kind. -/
def out_step.ctx : out_step → scan_ctx
  | .skip c => c
  | .abort c _ => c
  | .append c _ _ => c

/-- Tail of the per-output body after the amount is settled (scanner.cpp
lines 414-449): resolve the payment id lazily, read the absolute output
id with out_ids.at(index) (throwing when out of range), and build the
db::output row handed to add_out. -/
def scan_out_append (t : transaction) (out_ids : List Nat)
    (height timestamp ring_size key_pub index : Nat) (amount mask : Nat)
    (ext2 : db.extra) (ctx : scan_ctx) : out_step :=
  let ctx3 :=
    if ctx.payment_id = none then { ctx with payment_id := some (payment_of t) }
    else ctx
  let p := ctx3.payment_id.getD (0, 0)
  match out_ids.get? index with
  | none => .abort ctx3 .index_oob
  | some oid =>
    .append ctx3 ext2
      { height := height, id := oid, amount := amount, timestamp := timestamp,
        unlock_time := t.unlock_time, mixin_count := max 1 ring_size - 1,
        index := index, tx_hash := ctx3.tx_hash.getD 0,
        tx_prefix_hash := ctx3.prefix_hash.getD 0, tx_public := key_pub,
        ringct_mask := mask, extra := db.pack ext2 p.1, payment_id := p.2 }

/-- Amount resolution for one matched output (scanner.cpp lines
397-412): a visible amount is used as is with a zero mask; a zero
amount is decrypted from the ringct data at .at(index) (throwing when
out of range), a failed decryption skips the output, and a successful
one ORs kRingct into the extra value. -/
def scan_out_body (C : scan_crypto) (t : transaction) (out_ids : List Nat)
    (height timestamp derived ring_size key_pub index : Nat) (ext : db.extra)
    (ctx : scan_ctx) (out : txout) : out_step :=
  if out.amount = 0 then
    match t.rct_outPk.get? index, t.rct_ecdh.get? index with
    | some pk, some ecdh =>
      match C.decode_amount pk ecdh derived index with
      | none => .skip ctx
      | some (amount2, mask) =>
        scan_out_append t out_ids height timestamp ring_size key_pub index
          amount2 mask ext.or_ringct ctx
    | _, _ => .abort ctx .index_oob
  else
    scan_out_append t out_ids height timestamp ring_size key_pub index
      out.amount 0 ext ctx

/-- One iteration of the output loop of scan_transaction (scanner.cpp
lines 364-395 up to the amount handling): non to-key targets are
skipped, the one-time key must match the derived candidate, the prefix
hash is computed lazily, and a missing transaction hash is computed
lazily, with a hash failure leaving the engaged default value and
skipping the output. -/
def scan_one_out (C : scan_crypto) (t : transaction) (out_ids : List Nat)
    (height timestamp derived ring_size key_pub spend_public index : Nat)
    (ext : db.extra) (ctx : scan_ctx) (out : txout) : out_step :=
  match out.target with
  | .other => .skip ctx
  | .to_key out_key =>
    match C.derive_public_key derived index spend_public with
    | none => .skip ctx
    | some derived_pub =>
      if derived_pub ≠ out_key then .skip ctx
      else
        let ctx1 :=
          if ctx.prefix_hash = none then
            { ctx with prefix_hash := some (C.get_tx_prefix_hash t) }
          else ctx
        match ctx1.tx_hash with
        | some _ =>
          scan_out_body C t out_ids height timestamp derived ring_size key_pub
            index ext ctx1 out
        | none =>
          match C.get_tx_hash t with
          | none => .skip { ctx1 with tx_hash := some 0 }
          | some h =>
            scan_out_body C t out_ids height timestamp derived ring_size
              key_pub index ext { ctx1 with tx_hash := some h } out

/-- Output loop of scan_transaction for one user (scanner.cpp lines
363-450): the index counts every output, ext persists across the
iterations, and an exception leaves the user with the outputs appended
so far. -/
def scan_vout (C : scan_crypto) (t : transaction) (out_ids : List Nat)
    (height timestamp derived ring_size key_pub spend_public : Nat) :
    List txout → Nat → db.extra → scan_ctx → account →
      account × scan_ctx × Option scan_err
  | [], _, _, ctx, user => (user, ctx, none)
  | out :: rest, index, ext, ctx, user =>
    match scan_one_out C t out_ids height timestamp derived ring_size key_pub
        spend_public index ext ctx out with
    | .skip ctx2 =>
      scan_vout C t out_ids height timestamp derived ring_size key_pub
        spend_public rest (index + 1) ext ctx2 user
    | .abort ctx2 e => (user, ctx2, some e)
    | .append ctx2 ext2 o =>
      scan_vout C t out_ids height timestamp derived ring_size key_pub
        spend_public rest (index + 1) ext2 ctx2 (user.add_out o)

/-- Per-user body of scan_transaction (scanner.cpp lines 339-451): a
user already at or past the block height is skipped untouched; a failed
key derivation throws; otherwise the input loop records spends and the
ring size, the initial extra value is kCoinbase exactly when the ring
size is zero, and the output loop runs. -/
def scan_user (C : scan_crypto) (t : transaction) (out_ids : List Nat)
    (height timestamp key_pub : Nat) (ctx : scan_ctx) (user : account) :
    account × scan_ctx × Option scan_err :=
  if height ≤ user.scan_height then (user, ctx, none)
  else
    match C.generate_key_derivation key_pub user.view_key with
    | none => (user, ctx, some .derivation_failed)
    | some derived =>
      let rs := scan_vin t.vin 0 user
      let ext0 := if rs.1 = 0 then db.extra.kCoinbase else db.extra.kNone
      scan_vout C t out_ids height timestamp derived rs.1 key_pub
        user.spend_public t.vout 0 ext0 ctx rs.2

/-- User loop of scan_transaction: users are processed in place and in
order, the lazy per-transaction context threads through, and an
exception stops the loop leaving later users untouched. -/
def scan_users (C : scan_crypto) (t : transaction) (out_ids : List Nat)
    (height timestamp key_pub : Nat) :
    List account → scan_ctx → List account × Option scan_err
  | [], _ => ([], none)
  | user :: rest, ctx =>
    let r := scan_user C t out_ids height timestamp key_pub ctx user
    match r.2.2 with
    | some e => (r.1 :: rest, some e)
    | none =>
      let tail := scan_users C t out_ids height timestamp key_pub rest r.2.1
      (r.1 :: tail.1, tail.2)

/-- Embeds scan_transaction (scanner.cpp lines 316-452): transactions
above version 2 throw, a transaction without a tx_pub_key extra field
is skipped for all users, and otherwise every user is scanned with the
shared lazy context, whose transaction hash starts from the caller
supplied optional. -/
def scan_transaction (C : scan_crypto) (users : List account)
    (height timestamp : Nat) (tx_hash : Option Nat) (t : transaction)
    (out_ids : List Nat) : List account × Option scan_err :=
  if 2 < t.version then (users, some .version_unsupported)
  else
    match t.pub_key with
    | none => (users, none)
    | some key_pub =>
      scan_users C t out_ids height timestamp key_pub users
        { prefix_hash := none, tx_hash := tx_hash, payment_id := none }

/-- Payment-id lengths that can sit in the lazy context: unset, or one
of the three lengths the extraction produces. -/
def pay_ok (ctx : scan_ctx) : Prop :=
  ∀ p, ctx.payment_id = some p → p.1 = 0 ∨ p.1 = 8 ∨ p.1 = 32

end lws

/-- Crypto instance for the concrete scan runs: derivation always
succeeds with scalar 1, every candidate one-time key is 100, every
ringct decode yields amount 5 and mask 9, and the hashes are 11 and 12. -/
def cex_crypto : lws.scan_crypto :=
  { generate_key_derivation := fun _ _ => some 1
    derive_public_key := fun _ _ _ => some 100
    decode_amount := fun _ _ _ _ => some (5, 9)
    get_tx_prefix_hash := fun _ => 11
    get_tx_hash := fun _ => some 12 }

/-- Concrete transaction with no ring inputs and two owned outputs: the
first carries an encrypted (zero) amount, the second a visible amount
of 4. -/
def cex_tx : lws.transaction :=
  { version := 2, pub_key := some 50, payment := .nothing,
    vin := [.other], vout := [⟨0, .to_key 100⟩, ⟨4, .to_key 100⟩],
    unlock_time := 0, rct_outPk := [21, 22], rct_ecdh := [31, 32] }

/-- Concrete user behind the scanned height with no prior outputs. -/
def cex_user : lws.account :=
  { view_key := 1, spend_public := 2, view_public := 3, scan_height := 0,
    received_ := [], spends_ := [], outputs_ := [] }

/-- Concrete user already scanned past height 3. -/
def cex_user_synced : lws.account :=
  { view_key := 1, spend_public := 2, view_public := 3, scan_height := 5,
    received_ := [44], spends_ := [], outputs_ := [] }

/-! ## Supporting lemmas: std::lower_bound and std::binary_search -/

/-- Monotonicity of getD over a sorted list, within bounds. -/
theorem sorted_getD_mono (l : List Nat) (hs : l.Sorted (· ≤ ·))
    (i j : Nat) (hij : i ≤ j) (hj : j < l.length) :
    l.getD i 0 ≤ l.getD j 0 := by
  have hi : i < l.length := lt_of_le_of_lt hij hj
  rw [List.getD_eq_get l 0 hi, List.getD_eq_get l 0 hj]
  rcases Nat.lt_or_ge i j with h | h
  · exact hs.rel_get_of_lt h
  · have : i = j := le_antisymm hij h
    subst this
    exact le_refl _

/-- Partition invariant of the binary halving loop behind std::lower_bound:
if everything strictly before first is below v and everything at or after
first + count is at least v, the returned index separates the list the
same way. -/
theorem lower_bound_from_spec (l : List Nat) (v : Nat) (hs : l.Sorted (· ≤ ·)) :
    ∀ count first, first + count ≤ l.length →
      (∀ j, j < first → l.getD j 0 < v) →
      (∀ j, first + count ≤ j → j < l.length → v ≤ l.getD j 0) →
      (∀ j, j < lws.lower_bound_from l v first count → l.getD j 0 < v) ∧
        (∀ j, lws.lower_bound_from l v first count ≤ j → j < l.length →
          v ≤ l.getD j 0) := by
  intro count
  induction count using Nat.strong_induction_on with
  | _ count ih =>
    intro first hlen hlo hhi
    rw [lws.lower_bound_from]
    by_cases h0 : count = 0
    · subst h0
      simp only [dif_pos]
      refine ⟨hlo, fun j hj hjl => hhi j (by omega) hjl⟩
    · rw [dif_neg h0]
      simp only []
      by_cases hlt : l.getD (first + count / 2) 0 < v
      · rw [if_pos hlt]
        refine ih (count - count / 2 - 1) (by omega) (first + count / 2 + 1)
          (by omega) ?_ ?_
        · intro j hj
          rcases Nat.lt_or_ge j first with hjf | hjf
          · exact hlo j hjf
          · have hmono := sorted_getD_mono l hs j (first + count / 2)
              (by omega) (by omega)
            omega
        · intro j hj hjl
          exact hhi j (by omega) hjl
      · rw [if_neg hlt]
        refine ih (count / 2) (by omega) first (by omega) hlo ?_
        intro j hj hjl
        have hvx : v ≤ l.getD (first + count / 2) 0 := Nat.le_of_not_lt hlt
        have hmono := sorted_getD_mono l hs (first + count / 2) j hj hjl
        omega

/-- On a sorted list, the embedded std::binary_search decides membership. -/
theorem binary_search_mem (l : List Nat) (v : Nat) (hs : l.Sorted (· ≤ ·)) :
    lws.binary_search l v = true ↔ v ∈ l := by
  have hspec := lower_bound_from_spec l v hs l.length 0 (by omega)
    (fun j hj => absurd hj (Nat.not_lt_zero j))
    (fun j hj hjl => absurd hjl (by omega))
  set r := lws.lower_bound_from l v 0 l.length with hr
  unfold lws.binary_search lws.lower_bound
  rw [← hr]
  constructor
  · intro h
    simp only [Bool.and_eq_true, decide_eq_true_eq] at h
    obtain ⟨hrl, hle⟩ := h
    have hge := hspec.2 r (le_refl r) hrl
    have : l.getD r 0 = v := le_antisymm hle hge
    rw [← this, List.getD_eq_get l 0 hrl]
    exact List.get_mem l r hrl
  · intro hmem
    obtain ⟨⟨j, hj⟩, hjv⟩ := List.mem_iff_get.mp hmem
    have hgj : l.getD j 0 = v := by rw [List.getD_eq_get l 0 hj, hjv]
    have hrj : r ≤ j := by
      by_contra hc
      have := hspec.1 j (Nat.lt_of_not_le hc)
      omega
    have hrl : r < l.length := lt_of_le_of_lt hrj hj
    have : l.getD r 0 ≤ v := by
      have := sorted_getD_mono l hs r j hrj hj
      omega
    simp only [Bool.and_eq_true, decide_eq_true_eq]
    exact ⟨hrl, this⟩

/-- The bool returned by the embedded binary search equals the decidable
membership test, for sorted lists. -/
theorem binary_search_eq_decide (l : List Nat) (v : Nat) (hs : l.Sorted (· ≤ ·)) :
    lws.binary_search l v = decide (v ∈ l) := by
  by_cases h : v ∈ l
  · simp [h, (binary_search_mem l v hs).mpr h]
  · simp only [h, decide_False]
    cases hb : lws.binary_search l v
    · rfl
    · exact absurd ((binary_search_mem l v hs).mp hb) h

/-- The check_spends loop on a sorted received_ list emits exactly the
reconstructed ids that occur in received_, paired with the given image
and mixin, in offset order. -/
theorem check_spends_loop_eq (received : List Nat) (image mixin : Nat)
    (hs : received.Sorted (· ≤ ·)) :
    ∀ offs id, lws.check_spends_loop received image mixin offs id =
      ((lws.ring_ids offs id).filter (fun i => decide (i ∈ received))).map
        (fun i => (i, ⟨image, mixin⟩)) := by
  intro offs
  induction offs with
  | nil => intro id; rfl
  | cons o rest ihr =>
    intro id
    simp only [lws.check_spends_loop, lws.ring_ids]
    set id2 := (id + o) % 2 ^ 64 with hid2
    rw [binary_search_eq_decide received id2 hs, List.filter_cons]
    by_cases hmem : id2 ∈ received
    · simp [hmem, ihr id2]
    · simp [hmem, ihr id2]

/-! ## Claim theorems -/

/-- C1: claims the account constructor sorts received_ ascending. The
code does not: the std::sort at account.cpp line 83 runs on the
moved-from constructor parameter after the member was initialized, so
the member keeps the caller order. Evaluated at the input list [2, 1],
the constructed received_ is [2, 1], which is not sorted. -/
theorem account_ofDb_received_unsorted :
    (lws.account.ofDb acct_row [2, 1]).received_ = [2, 1] ∧
      ¬ List.Sorted (· ≤ ·) (lws.account.ofDb acct_row [2, 1]).received_ :=
  ⟨rfl, by decide⟩

/-- C2: claims unpack(pack(extra, length)) round-trips for every length
in 0..32. At length = 32 the source computes length << 3 = 256, which
the conversion to the uint8-backed enum truncates to 0, so the packed
byte for (kNone, 32) unpacks to (0, 0) instead of (kNone, 32). -/
theorem pack_unpack_fails_at_32 :
    db.unpack (db.pack db.extra.kNone 32) = (0, 0) ∧
      (db.extra.kNone.toNat, (32 : Nat)) ≠ ((0 : Nat), (0 : Nat)) := by
  decide

/-- C3: check_spends reconstructs absolute ids by uint64 prefix sums of
the offsets and appends to spends_ exactly one (id, {image, max(1,n)-1})
entry per reconstructed id present in the sorted received_ list, in
offset order, leaving received_ and outputs_ unchanged. -/
theorem check_spends_spec (a : lws.account) (image : Nat) (offs : List Nat)
    (hs : a.received_.Sorted (· ≤ ·)) :
    (a.check_spends image offs).received_ = a.received_ ∧
      (a.check_spends image offs).outputs_ = a.outputs_ ∧
      (a.check_spends image offs).spends_ = a.spends_ ++
        ((lws.ring_ids offs 0).filter (fun i => decide (i ∈ a.received_))).map
          (fun i => (i, ⟨image, max 1 offs.length - 1⟩)) := by
  refine ⟨rfl, rfl, ?_⟩
  show a.spends_ ++ lws.check_spends_loop a.received_ image _ offs 0 = _
  rw [check_spends_loop_eq a.received_ image (max 1 offs.length - 1) hs offs 0]

/-- Witness for C3: an account owning output id 100 sees the ring with
offsets [90, 5, 5] (absolute ids [90, 95, 100]) and records exactly the
spend (100, {image 7, mixin 2}). -/
theorem check_spends_spec_witness :
    (acct_with_100.check_spends 7 [90, 5, 5]).received_ = [100] ∧
      (acct_with_100.check_spends 7 [90, 5, 5]).outputs_ = [] ∧
      (acct_with_100.check_spends 7 [90, 5, 5]).spends_ = [(100, ⟨7, 2⟩)] := by
  have h := check_spends_spec acct_with_100 7 [90, 5, 5] (by decide)
  refine ⟨h.1, h.2.1, h.2.2.trans (by decide)⟩

/-- C4: claims each poll iteration decreases the remaining timeout by
the elapsed poll time, clamped at zero. The source subtracts
min(start - end, timeout), and start - end is the negated elapsed time,
so an interrupted 5 ms poll against a 10 ms budget leaves 15 ms instead
of the intended 5 ms: the remaining timeout grows. -/
theorem wait_timeout_update_bug :
    mzmq.wait_timeout_update 10 5 = 15 ∧
      mzmq.wait_timeout_update_intent 10 5 = 5 := by
  decide

/-- C5: key_check accepts exactly when deriving the public key from the
secret view key succeeds and the derived key equals the stored
view_public. -/
theorem key_check_iff (secret_to_public : Nat → Option Nat)
    (user : db.account_address) (key : Nat) :
    lws.key_check secret_to_public user key = true ↔
      secret_to_public key = some user.view_public := by
  unfold lws.key_check
  cases h : secret_to_public key with
  | none => simp
  | some verify =>
    by_cases hv : verify = user.view_public
    · simp [hv]
    · simp [hv, Ne.symm hv]

/-- C6: the sync_chain loop fails with kBadBlockchain whenever the
known-hashes locator it would send is empty, and for a nonempty locator
an iteration terminates the loop with success exactly when the response
holds at most one hash or its last hash equals the first hash of the
locator that was sent. -/
theorem sync_step_exit (d : Except lws.error Unit) (known resp : List Nat) :
    (known = [] → lws.sync_step d known resp = .fail .kBadBlockchain) ∧
      (known ≠ [] → (lws.sync_step d known resp = .success ↔
        resp.length ≤ 1 ∨ resp.getLast? = known.head?)) := by
  constructor
  · intro h
    subst h
    rfl
  · intro h
    unfold lws.sync_step
    rw [if_neg (by simpa [List.isEmpty_iff] using h)]
    by_cases hc : resp.length ≤ 1 ∨ resp.getLast? = known.head?
    · simp [hc]
    · rw [if_neg hc]
      cases d with
      | error e => simp [hc]
      | ok u => simp [hc]

/-- Witness for C6: with an empty locator the iteration fails with
kBadBlockchain, and with locator [5] a single-hash response ends the
loop successfully. -/
theorem sync_step_exit_witness :
    lws.sync_step (.ok ()) [] [7, 8] = .fail .kBadBlockchain ∧
      lws.sync_step (.ok ()) [5] [7] = .success :=
  ⟨(sync_step_exit (.ok ()) [] [7, 8]).1 rfl,
   ((sync_step_exit (.ok ()) [5] [7]).2 (by decide)).mpr (by decide)⟩

/-- C9: after a successful non-empty get_blocks_fast response (at least
one block, start height matching the request), the scan loop issues the
next request from the previous start height plus the number of returned
blocks minus one, overlapping the last returned block. -/
theorem scan_next_request_overlaps (req_start num_blocks : Nat)
    (h0 : 0 < num_blocks) (hbound : req_start + num_blocks - 1 < 2 ^ 64) :
    lws.scan_next_request req_start req_start num_blocks =
      .next_request (req_start + num_blocks - 1) := by
  unfold lws.scan_next_request
  rw [if_neg (by omega), if_neg (by simp), Nat.mod_eq_of_lt hbound]

/-- Witness for C9: a response of 3 blocks to a request at height 10
makes the next request start at height 12. -/
theorem scan_next_request_overlaps_witness :
    0 < 3 ∧ lws.scan_next_request 10 10 3 = .next_request 12 :=
  ⟨by decide, scan_next_request_overlaps 10 3 (by decide) (by norm_num)⟩

/-- C10: for an authenticated, non-hidden account whose summed amount
over the outputs passing the dust-threshold and mixin filters is
strictly below the requested amount, get_unspent_outs fails with
kNoSuchAccount instead of returning the output list. -/
theorem get_unspent_outs_insufficient (secret_to_public : Nat → Option Nat)
    (spends_of : Nat → List Nat) (address : db.account_address) (key : Nat)
    (amount : Nat) (mixin : Option Nat) (use_dust : Option Bool)
    (dust_threshold : Option Nat) (status : db.account_status)
    (outs : List db.output)
    (hauth : lws.key_check secret_to_public address key = true)
    (hvis : lws.is_hidden status = false)
    (hlow : (lws.unspent_loop
        (if use_dust.getD false ∨ dust_threshold = none then 0
          else dust_threshold.getD 0)
        (mixin.getD 0) spends_of outs 0 []).1 < amount) :
    lws.get_unspent_outs secret_to_public spends_of address key amount mixin
        use_dust dust_threshold status outs = .error .kNoSuchAccount := by
  unfold lws.get_unspent_outs
  rw [hauth, hvis]
  simp only [Bool.not_true, Bool.false_eq_true, if_false]
  rw [if_pos hlow]

/-- Witness for C10: a valid view key for the address, an active
account, a single usable output worth 3, and a request for 10 yields
kNoSuchAccount. -/
theorem get_unspent_outs_insufficient_witness :
    lws.key_check (fun k => some k) { spend_public := 3, view_public := 5 } 5 = true ∧
      (lws.unspent_loop 0 0 (fun _ => []) [out_worth_3] 0 []).1 < 10 ∧
      lws.get_unspent_outs (fun k => some k) (fun _ => [])
        { spend_public := 3, view_public := 5 } 5 10 none none none
        .kActive [out_worth_3] = .error .kNoSuchAccount :=
  ⟨by decide, by decide,
    get_unspent_outs_insufficient (fun k => some k) (fun _ => [])
      { spend_public := 3, view_public := 5 } 5 10 none none none .kActive
      [out_worth_3] (by decide) (by decide) (by decide)⟩

/-! ## Supporting lemmas: scan_transaction -/

/-- ORing kRingct into an extra value leaves the coinbase bit alone. -/
theorem or_ringct_has_coinbase (e : db.extra) :
    e.or_ringct.has_coinbase = e.has_coinbase := by
  cases e <;> rfl

/-- ORing kRingct into an extra value sets the ringct bit. -/
theorem or_ringct_has_ringct (e : db.extra) :
    e.or_ringct.has_ringct = true := by
  cases e <;> rfl

/-- For the payment-id lengths that actually occur (0, 8 and 32), the
flag bits survive db::pack and db::unpack: the packed byte carries the
coinbase and ringct bits of the packed extra value. -/
theorem pack_flags (e : db.extra) (l : Nat) (hl : l = 0 ∨ l = 8 ∨ l = 32) :
    lws.coinbase_flag (db.pack e l) = e.has_coinbase ∧
      lws.ringct_flag (db.pack e l) = e.has_ringct := by
  rcases hl with h | h | h <;> subst h <;> cases e <;> exact ⟨rfl, rfl⟩

/-- A context whose payment id is unchanged keeps the length bound. -/
theorem pay_ok_of_same (ctx ctx2 : lws.scan_ctx)
    (h : ctx2.payment_id = ctx.payment_id) (hp : lws.pay_ok ctx) :
    lws.pay_ok ctx2 := by
  intro p hp2
  exact hp p (h ▸ hp2)

/-- The lazy payment-id resolution keeps the length bound. -/
theorem pay_ok_resolve (t : lws.transaction) (ctx : lws.scan_ctx)
    (hp : lws.pay_ok ctx) :
    lws.pay_ok
      (if ctx.payment_id = none then
        { ctx with payment_id := some (lws.payment_of t) }
      else ctx) := by
  by_cases h : ctx.payment_id = none
  · rw [if_pos h]
    intro p hp2
    simp only at hp2
    cases hp2
    rcases ht : t.payment with id | id | _ <;> simp [lws.payment_of, ht]
  · rw [if_neg h]
    exact hp

/-- scan_out_append preserves the payment length bound. -/
theorem scan_out_append_pay (t : lws.transaction) (out_ids : List Nat)
    (height timestamp ring_size key_pub index amount mask : Nat)
    (ext2 : db.extra) (ctx : lws.scan_ctx) (hp : lws.pay_ok ctx) :
    lws.pay_ok (lws.scan_out_append t out_ids height timestamp ring_size
      key_pub index amount mask ext2 ctx).ctx := by
  unfold lws.scan_out_append
  have h3 := pay_ok_resolve t ctx hp
  cases h : out_ids.get? index <;> simp only [h] <;> exact h3

/-- scan_out_body preserves the payment length bound. -/
theorem scan_out_body_pay (C : lws.scan_crypto) (t : lws.transaction)
    (out_ids : List Nat)
    (height timestamp derived ring_size key_pub index : Nat) (ext : db.extra)
    (ctx : lws.scan_ctx) (out : lws.txout) (hp : lws.pay_ok ctx) :
    lws.pay_ok (lws.scan_out_body C t out_ids height timestamp derived
      ring_size key_pub index ext ctx out).ctx := by
  unfold lws.scan_out_body
  by_cases hz : out.amount = 0
  · rw [if_pos hz]
    split
    · split
      · exact hp
      · exact scan_out_append_pay t out_ids height timestamp ring_size
          key_pub index _ _ ext.or_ringct ctx hp
    · exact hp
  · rw [if_neg hz]
    exact scan_out_append_pay t out_ids height timestamp ring_size key_pub
      index out.amount 0 ext ctx hp

/-- scan_one_out preserves the payment length bound. -/
theorem scan_one_out_pay (C : lws.scan_crypto) (t : lws.transaction)
    (out_ids : List Nat)
    (height timestamp derived ring_size key_pub spend_public index : Nat)
    (ext : db.extra) (ctx : lws.scan_ctx) (out : lws.txout)
    (hp : lws.pay_ok ctx) :
    lws.pay_ok (lws.scan_one_out C t out_ids height timestamp derived
      ring_size key_pub spend_public index ext ctx out).ctx := by
  unfold lws.scan_one_out
  split
  · exact hp
  · split
    · exact hp
    · split
      · exact hp
      · by_cases hpre : ctx.prefix_hash = none
        · rw [if_pos hpre]
          dsimp only
          split
          · exact scan_out_body_pay C t out_ids height timestamp derived
              ring_size key_pub index ext _ out (pay_ok_of_same ctx _ rfl hp)
          · split
            · exact pay_ok_of_same ctx _ rfl hp
            · exact scan_out_body_pay C t out_ids height timestamp derived
                ring_size key_pub index ext _ out (pay_ok_of_same ctx _ rfl hp)
        · rw [if_neg hpre]
          dsimp only
          split
          · exact scan_out_body_pay C t out_ids height timestamp derived
              ring_size key_pub index ext ctx out hp
          · split
            · exact pay_ok_of_same ctx _ rfl hp
            · exact scan_out_body_pay C t out_ids height timestamp derived
                ring_size key_pub index ext _ out (pay_ok_of_same ctx _ rfl hp)

/-- The ring size scan_vin reports is tx_ring_size. -/
theorem scan_vin_fst (vin : List lws.txin) :
    ∀ acc user, (lws.scan_vin vin acc user).1 = lws.tx_ring_size vin acc := by
  induction vin with
  | nil => intro acc user; rfl
  | cons i rest ih =>
    intro acc user
    cases i with
    | to_key img offs => exact ih offs.length (user.check_spends img offs)
    | other => exact ih acc user

/-- scan_vin never touches outputs_. -/
theorem scan_vin_outputs (vin : List lws.txin) :
    ∀ acc user, (lws.scan_vin vin acc user).2.outputs_ = user.outputs_ := by
  induction vin with
  | nil => intro acc user; rfl
  | cons i rest ih =>
    intro acc user
    cases i with
    | to_key img offs => exact ih offs.length (user.check_spends img offs)
    | other => exact ih acc user

/-- scan_vin keeps the immutable spend key. -/
theorem scan_vin_spend_public (vin : List lws.txin) :
    ∀ acc user,
      (lws.scan_vin vin acc user).2.spend_public = user.spend_public := by
  induction vin with
  | nil => intro acc user; rfl
  | cons i rest ih =>
    intro acc user
    cases i with
    | to_key img offs => exact ih offs.length (user.check_spends img offs)
    | other => exact ih acc user

/-- When scan_out_append emits an output, the output records the given
index, the packed extra byte is db::pack of the carried extra value and
a payment length of 0, 8 or 32, and the carried extra value is returned
unchanged. -/
theorem scan_out_append_char (t : lws.transaction) (out_ids : List Nat)
    (height timestamp ring_size key_pub index amount mask : Nat)
    (ext2 : db.extra) (ctx ctx3 : lws.scan_ctx) (ext3 : db.extra)
    (o : db.output) (hpay : lws.pay_ok ctx)
    (h : lws.scan_out_append t out_ids height timestamp ring_size key_pub
      index amount mask ext2 ctx = .append ctx3 ext3 o) :
    ext3 = ext2 ∧ o.index = index ∧
      ∃ l, (l = 0 ∨ l = 8 ∨ l = 32) ∧ o.extra = db.pack ext2 l := by
  cases hoid : out_ids[index]? with
  | none =>
    by_cases hpn : ctx.payment_id = none <;>
      simp [lws.scan_out_append, hpn, hoid] at h
  | some oid =>
    by_cases hpn : ctx.payment_id = none
    · simp [lws.scan_out_append, hpn, hoid] at h
      obtain ⟨h1, h2, h3⟩ := h
      refine ⟨h2.symm, ?_, (lws.payment_of t).1, ?_, ?_⟩
      · rw [← h3]
      · rcases ht : t.payment with id | id | _ <;> simp [lws.payment_of, ht]
      · rw [← h3]
    · cases hsome : ctx.payment_id with
      | none => exact absurd hsome hpn
      | some p0 =>
        simp [lws.scan_out_append, hpn, hsome, hoid] at h
        obtain ⟨h1, h2, h3⟩ := h
        refine ⟨h2.symm, ?_, p0.1, hpay p0 hsome, ?_⟩
        · rw [← h3]
        · rw [← h3]

/-- When the amount-handling body emits an output: the output records
the index, its packed byte carries the final extra value with a payment
length of 0, 8 or 32, and the final extra value is or_ringct of the
incoming one exactly when the source amount was zero. -/
theorem scan_out_body_append_char (C : lws.scan_crypto) (t : lws.transaction)
    (out_ids : List Nat)
    (height timestamp derived ring_size key_pub index : Nat) (ext : db.extra)
    (ctx ctx3 : lws.scan_ctx) (ext3 : db.extra) (o : db.output)
    (out : lws.txout) (hpay : lws.pay_ok ctx)
    (h : lws.scan_out_body C t out_ids height timestamp derived ring_size
      key_pub index ext ctx out = .append ctx3 ext3 o) :
    o.index = index ∧
      (∃ l, (l = 0 ∨ l = 8 ∨ l = 32) ∧ o.extra = db.pack ext3 l) ∧
      ((out.amount = 0 ∧ ext3 = ext.or_ringct) ∨
        (out.amount ≠ 0 ∧ ext3 = ext)) := by
  unfold lws.scan_out_body at h
  by_cases hz : out.amount = 0
  · rw [if_pos hz] at h
    split at h
    · split at h
      · simp at h
      · obtain ⟨he, hidx, l, hl, hextra⟩ := scan_out_append_char t out_ids
          height timestamp ring_size key_pub index _ _ ext.or_ringct ctx
          ctx3 ext3 o hpay h
        refine ⟨hidx, ⟨l, hl, ?_⟩, Or.inl ⟨hz, he⟩⟩
        rw [he]
        exact hextra
    · simp at h
  · rw [if_neg hz] at h
    obtain ⟨he, hidx, l, hl, hextra⟩ := scan_out_append_char t out_ids height
      timestamp ring_size key_pub index out.amount 0 ext ctx ctx3 ext3 o
      hpay h
    refine ⟨hidx, ⟨l, hl, ?_⟩, Or.inr ⟨hz, he⟩⟩
    rw [he]
    exact hextra

/-- When one full output step emits an output, the conclusions of the
body characterization hold. -/
theorem scan_one_out_append_char (C : lws.scan_crypto) (t : lws.transaction)
    (out_ids : List Nat)
    (height timestamp derived ring_size key_pub spend_public index : Nat)
    (ext : db.extra) (ctx ctx3 : lws.scan_ctx) (ext3 : db.extra)
    (o : db.output) (out : lws.txout) (hpay : lws.pay_ok ctx)
    (h : lws.scan_one_out C t out_ids height timestamp derived ring_size
      key_pub spend_public index ext ctx out = .append ctx3 ext3 o) :
    o.index = index ∧
      (∃ l, (l = 0 ∨ l = 8 ∨ l = 32) ∧ o.extra = db.pack ext3 l) ∧
      ((out.amount = 0 ∧ ext3 = ext.or_ringct) ∨
        (out.amount ≠ 0 ∧ ext3 = ext)) := by
  unfold lws.scan_one_out at h
  split at h
  · simp at h
  · split at h
    · simp at h
    · split at h
      · simp at h
      · by_cases hpre : ctx.prefix_hash = none
        · rw [if_pos hpre] at h
          dsimp only at h
          split at h
          · refine scan_out_body_append_char C t out_ids height timestamp
              derived ring_size key_pub index ext _ ctx3 ext3 o out ?_ h
            intro p hp2
            exact hpay p hp2
          · split at h
            · simp at h
            · refine scan_out_body_append_char C t out_ids height timestamp
                derived ring_size key_pub index ext _ ctx3 ext3 o out ?_ h
              intro p hp2
              exact hpay p hp2
        · rw [if_neg hpre] at h
          dsimp only at h
          split at h
          · exact scan_out_body_append_char C t out_ids height timestamp
              derived ring_size key_pub index ext ctx ctx3 ext3 o out hpay h
          · split at h
            · simp at h
            · refine scan_out_body_append_char C t out_ids height timestamp
                derived ring_size key_pub index ext _ ctx3 ext3 o out ?_ h
              intro p hp2
              exact hpay p hp2

/-- Flag characterization of the output loop: starting from an extra
value whose coinbase bit records whether the ring size is zero, every
output the loop appends carries the coinbase flag exactly in that case,
and carries the ringct flag exactly when the incoming extra value
already had it or some appended output at an earlier or equal position
has a zero source amount in tx.vout. -/
theorem scan_vout_flags (C : lws.scan_crypto) (t : lws.transaction)
    (out_ids : List Nat)
    (height timestamp derived ring_size key_pub spend_public : Nat) :
    ∀ outs index ext ctx user,
      t.vout.drop index = outs →
      ext.has_coinbase = decide (ring_size = 0) →
      lws.pay_ok ctx →
      ∃ added,
        (lws.scan_vout C t out_ids height timestamp derived ring_size
            key_pub spend_public outs index ext ctx user).1.outputs_ =
          user.outputs_ ++ added ∧
        lws.pay_ok (lws.scan_vout C t out_ids height timestamp derived
          ring_size key_pub spend_public outs index ext ctx user).2.1 ∧
        ∀ k o, added.get? k = some o →
          lws.coinbase_flag o.extra = decide (ring_size = 0) ∧
          (lws.ringct_flag o.extra = true ↔
            (ext.has_ringct = true ∨ ∃ k2 o2, k2 ≤ k ∧
              added.get? k2 = some o2 ∧
              ∃ src, t.vout.get? o2.index = some src ∧ src.amount = 0)) := by
  intro outs
  induction outs with
  | nil =>
    intro index ext ctx user hdrop hcb hpay
    refine ⟨[], ?_, ?_, ?_⟩
    · simp [lws.scan_vout]
    · simp only [lws.scan_vout]
      exact hpay
    · intro k o hk
      simp at hk
  | cons out rest ih =>
    intro index ext ctx user hdrop hcb hpay
    have hvout_at : t.vout.get? index = some out := by
      have h0 : (t.vout.drop index).get? 0 = some out := by rw [hdrop]; rfl
      rw [List.get?_drop] at h0
      simpa using h0
    have hdrop1 : t.vout.drop (index + 1) = rest := by
      have h2 : (t.vout.drop index).drop 1 = rest := by rw [hdrop]; rfl
      rwa [List.drop_drop] at h2
    have hpaystep := scan_one_out_pay C t out_ids height timestamp derived
      ring_size key_pub spend_public index ext ctx out hpay
    cases hstep : lws.scan_one_out C t out_ids height timestamp derived
        ring_size key_pub spend_public index ext ctx out with
    | skip ctx2 =>
      have hpay2 : lws.pay_ok ctx2 := by
        rw [hstep] at hpaystep
        exact hpaystep
      have hred : lws.scan_vout C t out_ids height timestamp derived
          ring_size key_pub spend_public (out :: rest) index ext ctx user =
          lws.scan_vout C t out_ids height timestamp derived ring_size
            key_pub spend_public rest (index + 1) ext ctx2 user := by
        simp only [lws.scan_vout]
        rw [hstep]
      obtain ⟨added, hout, hpayr, hflags⟩ :=
        ih (index + 1) ext ctx2 user hdrop1 hcb hpay2
      rw [hred]
      exact ⟨added, hout, hpayr, hflags⟩
    | abort ctx2 e =>
      have hpay2 : lws.pay_ok ctx2 := by
        rw [hstep] at hpaystep
        exact hpaystep
      have hred : lws.scan_vout C t out_ids height timestamp derived
          ring_size key_pub spend_public (out :: rest) index ext ctx user =
          (user, ctx2, some e) := by
        simp only [lws.scan_vout]
        rw [hstep]
      rw [hred]
      refine ⟨[], by simp, hpay2, ?_⟩
      intro k o hk
      simp at hk
    | append ctx2 ext2 o =>
      have hpay2 : lws.pay_ok ctx2 := by
        rw [hstep] at hpaystep
        exact hpaystep
      have hred : lws.scan_vout C t out_ids height timestamp derived
          ring_size key_pub spend_public (out :: rest) index ext ctx user =
          lws.scan_vout C t out_ids height timestamp derived ring_size
            key_pub spend_public rest (index + 1) ext2 ctx2
            (user.add_out o) := by
        simp only [lws.scan_vout]
        rw [hstep]
      obtain ⟨hoidx, ⟨l, hl, hoextra⟩, hcases⟩ := scan_one_out_append_char C t
        out_ids height timestamp derived ring_size key_pub spend_public index
        ext ctx ctx2 ext2 o out hpay hstep
      have hcb2 : ext2.has_coinbase = decide (ring_size = 0) := by
        rcases hcases with ⟨hz, he⟩ | ⟨hz, he⟩
        · rw [he, or_ringct_has_coinbase]
          exact hcb
        · rw [he]
          exact hcb
      obtain ⟨added2, hout2, hpayr, hflags2⟩ :=
        ih (index + 1) ext2 ctx2 (user.add_out o) hdrop1 hcb2 hpay2
      rw [hred]
      refine ⟨o :: added2, ?_, hpayr, ?_⟩
      · rw [hout2]
        show (user.add_out o).outputs_ ++ added2 = user.outputs_ ++ o :: added2
        simp [lws.account.add_out]
      · intro k o1 hk
        cases k with
        | zero =>
          have ho1 : o = o1 := by simpa using hk
          subst ho1
          constructor
          · rw [hoextra, (pack_flags ext2 l hl).1]
            exact hcb2
          · rw [hoextra, (pack_flags ext2 l hl).2]
            rcases hcases with ⟨hz, he⟩ | ⟨hz, he⟩
            · rw [he, or_ringct_has_ringct]
              constructor
              · intro _
                exact Or.inr ⟨0, o, le_refl 0, rfl,
                  ⟨out, by rw [hoidx]; exact hvout_at, hz⟩⟩
              · intro _
                rfl
            · rw [he]
              constructor
              · intro hrc
                exact Or.inl hrc
              · rintro (hrc | ⟨k2, o2, hk2, ho2, src, hsrc, hsz⟩)
                · exact hrc
                · have hk20 : k2 = 0 := Nat.le_zero.mp hk2
                  subst hk20
                  have ho2o : o = o2 := by simpa using ho2
                  subst ho2o
                  rw [hoidx, hvout_at] at hsrc
                  cases hsrc
                  exact absurd hsz hz
        | succ k1 =>
          have hk1 : added2.get? k1 = some o1 := by simpa using hk
          obtain ⟨hcbf, hrcf⟩ := hflags2 k1 o1 hk1
          refine ⟨hcbf, ?_⟩
          rw [hrcf]
          rcases hcases with ⟨hz, he⟩ | ⟨hz, he⟩
          · rw [he, or_ringct_has_ringct]
            constructor
            · intro _
              exact Or.inr ⟨0, o, Nat.zero_le _, rfl,
                ⟨out, by rw [hoidx]; exact hvout_at, hz⟩⟩
            · intro _
              exact Or.inl rfl
          · rw [he]
            constructor
            · rintro (hrc | ⟨k2, o2, hk2, ho2, hsrc⟩)
              · exact Or.inl hrc
              · exact Or.inr ⟨k2 + 1, o2, Nat.succ_le_succ hk2,
                  by simpa using ho2, hsrc⟩
            · rintro (hrc | ⟨k2, o2, hk2, ho2, hsrc⟩)
              · exact Or.inl hrc
              · cases k2 with
                | zero =>
                  have ho2o : o = o2 := by simpa using ho2
                  subst ho2o
                  obtain ⟨src, hsrc2, hsz⟩ := hsrc
                  rw [hoidx, hvout_at] at hsrc2
                  cases hsrc2
                  exact absurd hsz hz
                | succ k3 =>
                  exact Or.inr ⟨k3, o2, Nat.le_of_succ_le_succ hk2,
                    by simpa using ho2, hsrc⟩

/-- Per-user flag characterization: whenever a user is scanned for a
transaction, the outputs appended to that user carry the coinbase flag
exactly when the ring size of the last to-key input (zero without one)
is zero, and the ringct flag exactly when some appended output at an
earlier or equal position has a zero amount in tx.vout. -/
theorem scan_user_flags (C : lws.scan_crypto) (t : lws.transaction)
    (out_ids : List Nat) (height timestamp key_pub : Nat)
    (ctx : lws.scan_ctx) (user : lws.account) (hpay : lws.pay_ok ctx) :
    lws.pay_ok
        (lws.scan_user C t out_ids height timestamp key_pub ctx user).2.1 ∧
      ∃ added,
        (lws.scan_user C t out_ids height timestamp key_pub ctx
            user).1.outputs_ = user.outputs_ ++ added ∧
        ∀ k o, added.get? k = some o →
          lws.coinbase_flag o.extra = decide (lws.tx_ring_size t.vin 0 = 0) ∧
          (lws.ringct_flag o.extra = true ↔
            ∃ k2 o2, k2 ≤ k ∧ added.get? k2 = some o2 ∧
              ∃ src, t.vout.get? o2.index = some src ∧ src.amount = 0) := by
  unfold lws.scan_user
  by_cases hskip : height ≤ user.scan_height
  · rw [if_pos hskip]
    refine ⟨hpay, [], by simp, ?_⟩
    intro k o hk
    simp at hk
  · rw [if_neg hskip]
    cases hd : C.generate_key_derivation key_pub user.view_key with
    | none =>
      refine ⟨hpay, [], by simp, ?_⟩
      intro k o hk
      simp at hk
    | some derived =>
      dsimp only
      have hrs1 : (lws.scan_vin t.vin 0 user).1 = lws.tx_ring_size t.vin 0 :=
        scan_vin_fst t.vin 0 user
      have hrs2 : (lws.scan_vin t.vin 0 user).2.outputs_ = user.outputs_ :=
        scan_vin_outputs t.vin 0 user
      have hcb0 : (if (lws.scan_vin t.vin 0 user).1 = 0 then
            db.extra.kCoinbase else db.extra.kNone).has_coinbase =
          decide ((lws.scan_vin t.vin 0 user).1 = 0) := by
        by_cases h0 : (lws.scan_vin t.vin 0 user).1 = 0 <;>
          simp [h0, db.extra.has_coinbase]
      obtain ⟨added, hout, hpayr, hflags⟩ := scan_vout_flags C t out_ids
        height timestamp derived (lws.scan_vin t.vin 0 user).1 key_pub
        user.spend_public t.vout 0 _ ctx (lws.scan_vin t.vin 0 user).2
        (by simp) hcb0 hpay
      refine ⟨hpayr, added, ?_, ?_⟩
      · rw [hout, hrs2]
      · intro k o hk
        obtain ⟨hc, hr⟩ := hflags k o hk
        refine ⟨by rw [hc, hrs1], ?_⟩
        rw [hr]
        have hnorc : (if (lws.scan_vin t.vin 0 user).1 = 0 then
            db.extra.kCoinbase else db.extra.kNone).has_ringct = false := by
          by_cases h0 : (lws.scan_vin t.vin 0 user).1 = 0 <;>
            simp [h0, db.extra.has_ringct]
        rw [hnorc]
        simp

/-- The user loop delivers, at every position, a user related to the
original one by any relation that one scan_user call establishes under
the payment-length invariant; users after an exception stay related by
reflexivity. -/
theorem scan_users_all (C : lws.scan_crypto) (t : lws.transaction)
    (out_ids : List Nat) (height timestamp key_pub : Nat)
    (P : lws.account → lws.account → Prop)
    (hrefl : ∀ u, P u u)
    (hstep : ∀ ctx u, lws.pay_ok ctx →
      P u (lws.scan_user C t out_ids height timestamp key_pub ctx u).1) :
    ∀ users ctx, lws.pay_ok ctx → ∀ i u, users.get? i = some u →
      ∃ u2, (lws.scan_users C t out_ids height timestamp key_pub users
        ctx).1.get? i = some u2 ∧ P u u2 := by
  intro users
  induction users with
  | nil =>
    intro ctx hpay i u hu
    simp at hu
  | cons user rest ihr =>
    intro ctx hpay i u hu
    have hpaynext : lws.pay_ok
        (lws.scan_user C t out_ids height timestamp key_pub ctx user).2.1 :=
      (scan_user_flags C t out_ids height timestamp key_pub ctx user hpay).1
    simp only [lws.scan_users]
    cases herr : (lws.scan_user C t out_ids height timestamp key_pub ctx
        user).2.2 with
    | some e =>
      cases i with
      | zero =>
        have huu : user = u := by simpa using hu
        subst huu
        exact ⟨_, rfl, hstep ctx user hpay⟩
      | succ i1 =>
        have hu1 : rest.get? i1 = some u := by simpa using hu
        exact ⟨u, by simpa using hu1, hrefl u⟩
    | none =>
      cases i with
      | zero =>
        have huu : user = u := by simpa using hu
        subst huu
        exact ⟨_, rfl, hstep ctx user hpay⟩
      | succ i1 =>
        have hu1 : rest.get? i1 = some u := by simpa using hu
        obtain ⟨u2, hres, hP⟩ := ihr
          (lws.scan_user C t out_ids height timestamp key_pub ctx user).2.1
          hpaynext i1 u hu1
        exact ⟨u2, by simpa using hres, hP⟩

/-- C8: a user whose scan height is at or past the scanned block height
is left completely unchanged by scan_transaction, whatever the
transaction, the other users or the crypto primitives do. -/
theorem scan_transaction_skips_synced_user (C : lws.scan_crypto)
    (users : List lws.account) (height timestamp : Nat) (txh : Option Nat)
    (t : lws.transaction) (out_ids : List Nat) (i : Nat) (u : lws.account)
    (hu : users.get? i = some u) (hskip : height ≤ u.scan_height) :
    (lws.scan_transaction C users height timestamp txh t out_ids).1.get? i =
      some u := by
  unfold lws.scan_transaction
  by_cases hv : 2 < t.version
  · rw [if_pos hv]
    exact hu
  · rw [if_neg hv]
    cases hpk : t.pub_key with
    | none => exact hu
    | some key_pub =>
      obtain ⟨u2, hres, hP⟩ := scan_users_all C t out_ids height timestamp
        key_pub (fun a b => height ≤ a.scan_height → b = a)
        (fun _ _ => rfl)
        (fun ctx a _ => by
          intro hle
          unfold lws.scan_user
          rw [if_pos hle])
        users { prefix_hash := none, tx_hash := txh, payment_id := none }
        (by intro p hp; simp at hp) i u hu
      rw [hres, hP hskip]

/-- Witness for C8: at block height 3, a user with scan height 5 keeps
an identical state through scan_transaction. -/
theorem scan_transaction_skips_synced_user_witness :
    [cex_user_synced].get? 0 = some cex_user_synced ∧
      (3 : Nat) ≤ cex_user_synced.scan_height ∧
      (lws.scan_transaction cex_crypto [cex_user_synced] 3 0 (some 12) cex_tx
        [10, 11]).1.get? 0 = some cex_user_synced :=
  ⟨rfl, by decide,
    scan_transaction_skips_synced_user cex_crypto [cex_user_synced] 3 0
      (some 12) cex_tx [10, 11] 0 cex_user_synced rfl (by decide)⟩

/-- C7 (amended): every output appended by scan_transaction carries the
kCoinbase flag exactly when the ring size remembered from the last
to-key input (zero when the transaction has none) is zero, and carries
the kRingct flag exactly when some output appended for that user at an
earlier or equal position of the same call (its own position included)
sits at a tx.vout position whose amount field is zero — the flag is
sticky across the outputs of the transaction. -/
theorem scan_transaction_extra_flags (C : lws.scan_crypto)
    (users : List lws.account) (height timestamp : Nat) (txh : Option Nat)
    (t : lws.transaction) (out_ids : List Nat) (i : Nat) (u : lws.account)
    (hu : users.get? i = some u) :
    ∃ u2 added,
      (lws.scan_transaction C users height timestamp txh t out_ids).1.get? i =
        some u2 ∧
      u2.outputs_ = u.outputs_ ++ added ∧
      ∀ k o, added.get? k = some o →
        lws.coinbase_flag o.extra = decide (lws.tx_ring_size t.vin 0 = 0) ∧
        (lws.ringct_flag o.extra = true ↔
          ∃ k2 o2, k2 ≤ k ∧ added.get? k2 = some o2 ∧
            ∃ src, t.vout.get? o2.index = some src ∧ src.amount = 0) := by
  unfold lws.scan_transaction
  by_cases hv : 2 < t.version
  · rw [if_pos hv]
    exact ⟨u, [], hu, by simp, by intro k o hk; simp at hk⟩
  · rw [if_neg hv]
    cases hpk : t.pub_key with
    | none => exact ⟨u, [], hu, by simp, by intro k o hk; simp at hk⟩
    | some key_pub =>
      obtain ⟨u2, hres, added, hout, hflags⟩ := scan_users_all C t out_ids
        height timestamp key_pub
        (fun a b => ∃ added, b.outputs_ = a.outputs_ ++ added ∧
          ∀ k o, added.get? k = some o →
            lws.coinbase_flag o.extra =
              decide (lws.tx_ring_size t.vin 0 = 0) ∧
            (lws.ringct_flag o.extra = true ↔
              ∃ k2 o2, k2 ≤ k ∧ added.get? k2 = some o2 ∧
                ∃ src, t.vout.get? o2.index = some src ∧ src.amount = 0))
        (fun a => ⟨[], by simp, by intro k o hk; simp at hk⟩)
        (fun ctx a hpay =>
          (scan_user_flags C t out_ids height timestamp key_pub ctx a hpay).2)
        users { prefix_hash := none, tx_hash := txh, payment_id := none }
        (by intro p hp; simp at hp) i u hu
      exact ⟨u2, added, hres, hout, hflags⟩

/-- Witness for the amended C7: the characterization applied to the
concrete two-output ringct transaction and user. -/
theorem scan_transaction_extra_flags_witness :
    [cex_user].get? 0 = some cex_user ∧
      ∃ u2 added,
        (lws.scan_transaction cex_crypto [cex_user] 1 0 (some 12) cex_tx
          [10, 11]).1.get? 0 = some u2 ∧
        u2.outputs_ = cex_user.outputs_ ++ added ∧
        ∀ k o, added.get? k = some o →
          lws.coinbase_flag o.extra =
            decide (lws.tx_ring_size cex_tx.vin 0 = 0) ∧
          (lws.ringct_flag o.extra = true ↔
            ∃ k2 o2, k2 ≤ k ∧ added.get? k2 = some o2 ∧
              ∃ src, cex_tx.vout.get? o2.index = some src ∧
                src.amount = 0) :=
  ⟨rfl, scan_transaction_extra_flags cex_crypto [cex_user] 1 0 (some 12)
    cex_tx [10, 11] 0 cex_user rfl⟩

/-- Counterexample for C7 as stated: scanning the concrete transaction
whose first owned output has an encrypted (zero) amount and whose
second owned output has the visible amount 4, both appended outputs
carry the kRingct flag, although the second output of tx.vout has a
nonzero amount field — the flag does not hold `iff the output's amount
field was zero`. -/
theorem scan_transaction_ringct_sticky_cex :
    ((lws.scan_transaction cex_crypto [cex_user] 1 0 (some 12) cex_tx
        [10, 11]).1.headD cex_user).outputs_.map
          (fun o => (o.index, lws.ringct_flag o.extra)) =
        [(0, true), (1, true)] ∧
      cex_tx.vout.map lws.txout.amount = [0, 4] ∧ (4 : Nat) ≠ 0 := by
  refine ⟨?_, rfl, by decide⟩
  decide
